import Mathlib

/-!
Verification of the partition arithmetic and distribution operators of
`pyoperators/operators_mpi.py`.

The Python source is embedded shallowly:
* machine integers become `Int` (Python integers are unbounded; Python's
  floor division `//` and modulo `%` are `Int.fdiv` and `Int.fmod`);
* functions that can raise (`ZeroDivisionError` on `// 0`, the explicit
  `ValueError` for splitting a scalar shape) return `Option`, with `none`
  marking the raised exception;
* `numpy` buffers become `List`s; slicing `input[a:b]` (with the in-range,
  non-negative bounds produced by `distribute_slice`) becomes
  `(input.drop a).take (b - a)`;
* the MPI collectives, which are external library calls, are modelled by
  their documented meaning: `Allgatherv` at the cumulative offsets computed
  by the constructor is rank-order concatenation, and `Allreduce(SUM)` is
  the element-wise sum over all ranks' buffers, delivered identically to
  every rank.
-/

/-- Body of `distribute_shape` / `distribute_slice` (operators_mpi.py:174,189):
`nlocal = nglobal // size + ((nglobal % size) > rank)`, the number of elements
of the first axis assigned to `rank`. -/
def nlocal (nglobal rank size : Int) : Int :=
  nglobal.fdiv size + (if nglobal.fmod size > rank then 1 else 0)

/-- Start bound of the local slice (operators_mpi.py:190):
`start = nglobal // size * rank + min(rank, nglobal % size)`. -/
def slice_start (nglobal rank size : Int) : Int :=
  nglobal.fdiv size * rank + min rank (nglobal.fmod size)

/-- Stop bound of the local slice (operators_mpi.py:191): `stop = start + nlocal`. -/
def slice_stop (nglobal rank size : Int) : Int :=
  slice_start nglobal rank size + nlocal nglobal rank size

/-- `distribute_slice(nglobal, rank, size)` (operators_mpi.py:178-192).
The function performs no argument validation; the only failure is the
`ZeroDivisionError` raised by `nglobal // size` when `size == 0`, modelled
by `none`. -/
def distribute_slice (nglobal rank size : Int) : Option (Int × Int) :=
  if size = 0 then none
  else some (slice_start nglobal rank size, slice_stop nglobal rank size)

/-- `distribute_shape(shape, rank, size)` (operators_mpi.py:154-175).
An empty shape with `size > 1` raises `ValueError` (modelled by `none`);
an empty shape otherwise returns `()`; a non-empty shape replaces the first
dimension by `nlocal`, which raises `ZeroDivisionError` when `size == 0`. -/
def distribute_shape (shape : List Int) (rank size : Int) : Option (List Int) :=
  match shape with
  | [] => if size > 1 then none else some []
  | nglobal :: rest =>
      if size = 0 then none
      else some (nlocal nglobal rank size :: rest)

/-- One iteration of the constructor loop of `DistributionGlobalOperator.__init__`
(operators_mpi.py:66-70): `n = (s.stop - s.start) * product(shapein[1:])`,
`counts.append(n)`, `offsets.append(offsets[-1] + n)`. -/
def dgo_step (nglobal q : Int) (size : Nat) (acc : List Int × List Int) (rank : Nat) :
    List Int × List Int :=
  match distribute_slice nglobal rank size with
  | none => acc
  | some s =>
      let n := (s.2 - s.1) * q
      (acc.1 ++ [n], acc.2 ++ [acc.2.getLast! + n])

/-- The `counts` and `offsets` lists precomputed by
`DistributionGlobalOperator.__init__` (operators_mpi.py:64-71), with
`q = product(shapein[1:])`: the loop runs over `rank in range(size)` starting
from `counts = []`, `offsets = [0]`, and finally `offsets.pop()` drops the
last entry. -/
def dgo_table (nglobal q : Int) (size : Nat) : List Int × List Int :=
  let acc := (List.range size).foldl (dgo_step nglobal q size) ([], [0])
  (acc.1, acc.2.dropLast)

namespace DistributionGlobalOperator

variable {α : Type}

/-- `DistributionGlobalOperator.direct` (operators_mpi.py:78-79):
`output[:] = input[self.slice.start:self.slice.stop]`, a pure local copy of
the rank's slice of the first axis. -/
def direct (start stop : Int) (input : List α) : List α :=
  (input.drop start.toNat).take (stop.toNat - start.toNat)

/-- `DistributionGlobalOperator.transpose` (operators_mpi.py:81-87): the
`Allgatherv` collective places rank `r`'s buffer at byte offset
`offsets[r] * itemsize` of the output; since the offsets are the cumulative
sums of the counts (proved below about `dgo_table`), the reassembled global
buffer delivered to every rank is the rank-order concatenation of the local
buffers. -/
def transpose (inputs : List (List α)) : List α :=
  inputs.flatten

end DistributionGlobalOperator

namespace DistributionIdentityOperator

variable {α : Type}

/-- `DistributionIdentityOperator.direct` (operators_mpi.py:143-146): if the
two buffers share storage (`same_data`) the method returns without touching
`output` (whose contents then already equal `input`); otherwise it copies
`input` into `output`. The result is the final contents of `output`. -/
def direct (same_data : Bool) (input output : α) : α :=
  if same_data then output else input

/-- Element-wise sum across ranks: the meaning of
`Allreduce(MPI.IN_PLACE, output, op=MPI.SUM)` over equal-shaped buffers. -/
def allreduce_sum : List (List Int) → List Int
  | [] => []
  | [b] => b
  | b :: bs => List.zipWith (· + ·) b (allreduce_sum bs)

/-- `DistributionIdentityOperator.transpose` (operators_mpi.py:148-151): on
each rank `j`, unless the buffers alias, `output[...] = input`; then the
in-place `Allreduce(SUM)` replaces every rank's output with the element-wise
sum over all ranks' outputs, delivering the same value everywhere. -/
def transpose (size : Nat) (same_data : Nat → Bool) (input output : Nat → List Int) :
    List Int :=
  allreduce_sum ((List.range size).map fun j =>
    if same_data j then output j else input j)

end DistributionIdentityOperator

/-- Specification-level local extent over `Nat`: `nlocal` restricted to the
non-negative arguments the operators use. -/
def nlocalN (m r s : Nat) : Nat :=
  m / s + if r < m % s then 1 else 0

/-- Specification-level slice start over `Nat`. -/
def startN (m r s : Nat) : Nat :=
  m / s * r + min r (m % s)

lemma nlocal_natCast (m r s : Nat) :
    nlocal (m : Int) (r : Int) (s : Int) = (nlocalN m r s : Int) := by
  unfold nlocal nlocalN
  rw [← Int.ofNat_fdiv, ← Int.ofNat_fmod]
  by_cases h : r < m % s
  · rw [if_pos (show ((m % s : Nat) : Int) > (r : Int) by exact_mod_cast h), if_pos h]
    push_cast
    ring
  · rw [if_neg (show ¬ ((m % s : Nat) : Int) > (r : Int) by exact_mod_cast h), if_neg h]
    push_cast
    ring

lemma slice_start_natCast (m r s : Nat) :
    slice_start (m : Int) (r : Int) (s : Int) = (startN m r s : Int) := by
  unfold slice_start startN
  rw [← Int.ofNat_fdiv, ← Int.ofNat_fmod]
  push_cast
  rfl

lemma slice_stop_natCast (m r s : Nat) :
    slice_stop (m : Int) (r : Int) (s : Int) = ((startN m r s + nlocalN m r s : Nat) : Int) := by
  unfold slice_stop
  rw [slice_start_natCast, nlocal_natCast]
  push_cast
  rfl

lemma startN_zero (m s : Nat) : startN m 0 s = 0 := by
  simp [startN]

lemma startN_succ (m r s : Nat) :
    startN m (r + 1) s = startN m r s + nlocalN m r s := by
  unfold startN nlocalN
  rw [Nat.mul_succ]
  by_cases h : r < m % s
  · simp only [h, if_true]
    omega
  · simp only [h, if_false]
    omega

lemma startN_self (m s : Nat) (hs : 1 ≤ s) : startN m s s = m := by
  unfold startN
  have hmod : m % s < s := Nat.mod_lt _ hs
  rw [Nat.min_eq_right (Nat.le_of_lt hmod), Nat.mul_comm]
  exact Nat.div_add_mod m s

lemma startN_eq_sum (m s : Nat) : ∀ k : Nat,
    startN m k s = ∑ r ∈ Finset.range k, nlocalN m r s := by
  intro k
  induction k with
  | zero => simp [startN_zero]
  | succ k ih => rw [startN_succ, Finset.sum_range_succ, ih]

lemma getLast!_append_singleton (l : List Int) (a : Int) : (l ++ [a]).getLast! = a :=
  List.getLast!_of_getLast? (List.getLast?_concat l)

lemma getD_map_range (f : Nat → Int) (s r : Nat) (h : r < s) :
    ((List.range s).map f).getD r 0 = f r := by
  rw [List.getD_eq_getElem?_getD, List.getElem?_map, List.getElem?_range h]
  rfl

lemma slice_stop_sub_start (n r s : Int) :
    slice_stop n r s - slice_start n r s = nlocal n r s := by
  unfold slice_stop
  ring

lemma distribute_slice_of_ne (n r s : Int) (hs : s ≠ 0) :
    distribute_slice n r s = some (slice_start n r s, slice_stop n r s) := by
  unfold distribute_slice
  rw [if_neg hs]

/-- Specification-level element count of rank `r` in the partition table:
`nlocal * product(shapein[1:])`. -/
def cntI (n q : Int) (s : Nat) (r : Nat) : Int :=
  nlocal n (↑r) (↑s) * q

/-- Specification-level cumulative offset of rank `r` in the partition table. -/
def offI (n q : Int) (s : Nat) (r : Nat) : Int :=
  ((List.range r).map (cntI n q s)).sum

lemma dgo_foldl_spec (n q : Int) (s : Nat) (hs : (s : Int) ≠ 0) (k : Nat) :
    (List.range k).foldl (dgo_step n q s) ([], [0]) =
      ((List.range k).map (cntI n q s), (List.range (k + 1)).map (offI n q s)) := by
  induction k with
  | zero =>
      have h1 : List.range 1 = [0] := rfl
      simp [offI, h1]
  | succ k ih =>
      rw [List.range_succ, List.foldl_append, ih, List.foldl_cons, List.foldl_nil]
      simp only [dgo_step, distribute_slice_of_ne n (↑k) (↑s) hs, slice_stop_sub_start]
      rw [Prod.mk.injEq]
      constructor
      · simp [cntI]
      · have hlast : ((List.range (k + 1)).map (offI n q s)).getLast! = offI n q s k := by
          rw [List.range_succ, List.map_append]
          exact getLast!_append_singleton _ _
        rw [hlast]
        have hoff : offI n q s k + nlocal n (↑k) (↑s) * q = offI n q s (k + 1) := by
          simp [offI, cntI, List.range_succ]
        rw [hoff, List.range_succ (n := k + 1), List.map_append]
        simp

lemma dgo_table_spec (n q : Int) (s : Nat) (hs : 1 ≤ s) :
    dgo_table n q s =
      ((List.range s).map (cntI n q s), (List.range s).map (offI n q s)) := by
  have hs' : (s : Int) ≠ 0 := Int.natCast_ne_zero.mpr (by omega)
  unfold dgo_table
  rw [dgo_foldl_spec n q s hs' s]
  refine congrArg₂ Prod.mk rfl ?_
  show ((List.range (s + 1)).map (offI n q s)).dropLast = (List.range s).map (offI n q s)
  rw [List.range_succ, List.map_append]
  simp

lemma flatten_segments {α : Type} (G : List α) (s : Nat) : ∀ k : Nat,
    ((List.range k).map fun r =>
      (G.drop (startN G.length r s)).take (nlocalN G.length r s)).flatten
      = G.take (startN G.length k s) := by
  intro k
  induction k with
  | zero => simp [startN_zero]
  | succ k ih =>
      rw [List.range_succ, List.map_append, List.flatten_append, ih, startN_succ,
        List.take_add]
      simp

lemma allreduce_sum_length (m : Nat) :
    ∀ bufs : List (List Int), bufs ≠ [] → (∀ b ∈ bufs, b.length = m) →
      (DistributionIdentityOperator.allreduce_sum bufs).length = m := by
  intro bufs
  induction bufs with
  | nil => exact fun h _ => absurd rfl h
  | cons b bs ih =>
      intro _ hb
      cases bs with
      | nil => simpa [DistributionIdentityOperator.allreduce_sum] using hb b (by simp)
      | cons c bs' =>
          have h1 := ih (by simp) (fun x hx => hb x (List.mem_cons_of_mem _ hx))
          simp only [DistributionIdentityOperator.allreduce_sum, List.length_zipWith, h1,
            hb b (by simp)]
          simp

lemma allreduce_sum_getD (m : Nat) :
    ∀ bufs : List (List Int), (∀ b ∈ bufs, b.length = m) → ∀ i : Nat, i < m →
      (DistributionIdentityOperator.allreduce_sum bufs).getD i 0
        = (bufs.map fun b => b.getD i 0).sum := by
  intro bufs
  induction bufs with
  | nil => intro _ i _; simp [DistributionIdentityOperator.allreduce_sum]
  | cons b bs ih =>
      intro hb i hi
      cases bs with
      | nil => simp [DistributionIdentityOperator.allreduce_sum]
      | cons c bs' =>
          have hlen : (DistributionIdentityOperator.allreduce_sum (c :: bs')).length = m :=
            allreduce_sum_length m (c :: bs') (by simp)
              (fun x hx => hb x (List.mem_cons_of_mem _ hx))
          have hbl : b.length = m := hb b (by simp)
          have hih := ih (fun x hx => hb x (List.mem_cons_of_mem _ hx)) i hi
          simp only [DistributionIdentityOperator.allreduce_sum]
          have hzl : i < (List.zipWith (· + ·) b
              (DistributionIdentityOperator.allreduce_sum (c :: bs'))).length := by
            rw [List.length_zipWith, hlen, hbl]
            simpa using hi
          rw [List.getD_eq_getElem _ _ hzl, List.getElem_zipWith]
          rw [← List.getD_eq_getElem b (0 : Int) (List.lt_length_left_of_zipWith hzl),
            ← List.getD_eq_getElem _ (0 : Int) (List.lt_length_right_of_zipWith hzl), hih]
          simp

/-- C1: for every `nglobal ≥ 0` and `size ≥ 1`, the local extents
`nlocal(nglobal, rank, size) = nglobal // size + (1 if nglobal % size > rank else 0)`
summed over all ranks `0..size-1` equal `nglobal`. -/
theorem C1_sum_local_extents (m s : Nat) (hs : 1 ≤ s) :
    ∑ r ∈ Finset.range s, nlocal (m : Int) (↑r) (↑s) = (m : Int) := by
  have h1 : ∀ r ∈ Finset.range s, nlocal (m : Int) (↑r) (↑s) = ((nlocalN m r s : Nat) : Int) :=
    fun r _ => nlocal_natCast m r s
  rw [Finset.sum_congr rfl h1, ← Nat.cast_sum, ← startN_eq_sum, startN_self m s hs]

/-- Witness for C1 at `nglobal = 16`, `size = 3` (extents 6, 5, 5). -/
theorem C1_sum_local_extents_witness :
    ∑ r ∈ Finset.range 3, nlocal ((16 : Nat) : Int) (↑r) ((3 : Nat) : Int) = ((16 : Nat) : Int) :=
  C1_sum_local_extents 16 3 (by decide)

/-- C2: `distribute_slice` returns the half-open range `[start, start + nlocal)`
with `start = nglobal // size * rank + min(rank, nglobal % size)`, and for
`rank = 0..size-1` the slices exactly tile `[0, nglobal)`: the first starts at
0, the last stops at `nglobal`, and each slice's stop equals the next slice's
start (no gaps, no overlaps, ordered by rank). -/
theorem C2_slices_tile (m s : Nat) (hs : 1 ≤ s) :
    (∀ r : Nat, distribute_slice (m : Int) (↑r) (↑s)
        = some (slice_start (m : Int) (↑r) (↑s),
                slice_start (m : Int) (↑r) (↑s) + nlocal (m : Int) (↑r) (↑s))) ∧
    slice_start (m : Int) ((0 : Nat) : Int) (↑s) = 0 ∧
    slice_stop (m : Int) (((s - 1 : Nat) : Nat) : Int) (↑s) = (m : Int) ∧
    (∀ r : Nat, r + 1 < s →
      slice_stop (m : Int) (↑r) (↑s) = slice_start (m : Int) (↑(r + 1)) (↑s)) := by
  have hsZ : (s : Int) ≠ 0 := Int.natCast_ne_zero.mpr (by omega)
  refine ⟨fun r => distribute_slice_of_ne _ _ _ hsZ, ?_, ?_, ?_⟩
  · rw [slice_start_natCast, startN_zero]
    rfl
  · rw [slice_stop_natCast]
    have hx : s - 1 + 1 = s := Nat.succ_pred_eq_of_pos hs
    have h2 := startN_succ m (s - 1) s
    rw [hx] at h2
    rw [← h2, startN_self m s hs]
  · intro r hr
    rw [slice_stop_natCast, slice_start_natCast, startN_succ m r s]

/-- Witness for C2 at `nglobal = 16`, `size = 3`: the last slice stops at 16. -/
theorem C2_slices_tile_witness :
    slice_stop ((16 : Nat) : Int) ((((3 : Nat) - 1 : Nat) : Nat) : Int) ((3 : Nat) : Int)
      = ((16 : Nat) : Int) :=
  (C2_slices_tile 16 3 (by decide)).2.2.1

/-- C6: the local extents of any two ranks differ by at most one, and the
remainder elements are assigned to the lowest ranks first: the extent is
non-increasing in the rank. -/
theorem C6_load_balance (m s r1 r2 : Nat) (hs : 1 ≤ s) (h1 : r1 < s) (h2 : r2 < s) :
    (nlocal (m : Int) (↑r1) (↑s) - nlocal (m : Int) (↑r2) (↑s)).natAbs ≤ 1 ∧
    (r1 < r2 → nlocal (m : Int) (↑r2) (↑s) ≤ nlocal (m : Int) (↑r1) (↑s)) := by
  rw [nlocal_natCast, nlocal_natCast]
  unfold nlocalN
  constructor
  · by_cases ha : r1 < m % s <;> by_cases hb : r2 < m % s <;> simp [ha, hb] <;> omega
  · intro hlt
    by_cases ha : r1 < m % s <;> by_cases hb : r2 < m % s <;> simp [ha, hb] <;> omega

/-- Witness for C6 at `nglobal = 16`, `size = 3`, ranks 0 and 2 (extents 6 and 5). -/
theorem C6_load_balance_witness :
    (nlocal ((16 : Nat) : Int) (↑(0 : Nat)) ((3 : Nat) : Int)
      - nlocal ((16 : Nat) : Int) (↑(2 : Nat)) ((3 : Nat) : Int)).natAbs ≤ 1 :=
  (C6_load_balance 16 3 0 2 (by decide) (by decide) (by decide)).1

/-- C4 counterexample: the claim states that `distribute_slice` fails with an
error whenever `rank` is outside `[0, size)` or `nglobal < 0`, returning no
ordinary value. In the source there is no such validation: `rank = 3` with
`size = 3` returns the ordinary slice `(3, 4)`, and `nglobal = -1` with
`rank = 0`, `size = 2` returns the ordinary slice `(0, 0)`. -/
theorem C4_counterexample :
    distribute_slice 3 3 3 = some (3, 4) ∧ ¬ ((3 : Int) < 3) ∧
    distribute_slice (-1) 0 2 = some (0, 0) ∧ ((-1 : Int) < 0) :=
  ⟨by decide, by decide, by decide, by decide⟩

/-- C4 amended: `distribute_slice` and the non-empty-shape branch of
`distribute_shape` perform no precondition validation; they fail only when
`size = 0` (Python's `ZeroDivisionError` on `nglobal // size`), and for every
`size ≠ 0` — including ranks outside `[0, size)`, negative `nglobal` and
negative `size` — they return an ordinary value. -/
theorem C4_amended_no_validation :
    (∀ nglobal rank size : Int, size ≠ 0 → (distribute_slice nglobal rank size).isSome = true) ∧
    (∀ nglobal rank : Int, distribute_slice nglobal rank 0 = none) ∧
    (∀ (nglobal : Int) (rest : List Int) (rank size : Int), size ≠ 0 →
      (distribute_shape (nglobal :: rest) rank size).isSome = true) ∧
    (∀ (nglobal : Int) (rest : List Int) (rank : Int),
      distribute_shape (nglobal :: rest) rank 0 = none) := by
  refine ⟨?_, ?_, ?_, ?_⟩
  · intro n r s h
    rw [distribute_slice_of_ne n r s h]
    rfl
  · intro n r
    simp [distribute_slice]
  · intro n rest r s h
    simp [distribute_shape, h]
  · intro n rest r
    simp [distribute_shape]

/-- Witness for the amended C4: an out-of-range rank and a negative size still
produce a value. -/
theorem C4_amended_no_validation_witness :
    (distribute_slice 5 7 (-2)).isSome = true :=
  C4_amended_no_validation.1 5 7 (-2) (by decide)

/-- C7: `distribute_shape` on an empty (scalar) shape fails exactly when the
group has more than one worker; with `size = 1` it succeeds returning the
empty shape; on a non-empty shape (for any `size ≠ 0`, where the local extent
is well defined) it replaces the first dimension by the local extent and
keeps the remaining dimensions unchanged. -/
theorem C7_scalar_shape (rank : Int) :
    (∀ size : Int, 1 < size → distribute_shape [] rank size = none) ∧
    distribute_shape [] rank 1 = some [] ∧
    (∀ (nglobal : Int) (rest : List Int) (size : Int), size ≠ 0 →
      distribute_shape (nglobal :: rest) rank size
        = some (nlocal nglobal rank size :: rest)) := by
  refine ⟨?_, ?_, ?_⟩
  · intro s h
    simp [distribute_shape, h]
  · simp [distribute_shape]
  · intro n rest s h
    simp [distribute_shape, h]

/-- Witness for C7: a scalar shape with five workers fails; with one worker it
succeeds. -/
theorem C7_scalar_shape_witness :
    distribute_shape [] 0 5 = none :=
  (C7_scalar_shape 0).1 5 (by decide)

/-- C5 counterexample: for the non-empty global shape `(1,)` (so
`q = product(shape[1:]) = 1`) and a group of size 3, the precomputed offsets
are `[0, 1, 1]`: the entries at positions 1 and 2 are equal, so the offsets
sequence is not strictly increasing as the claim states. -/
theorem C5_counterexample :
    (dgo_table 1 1 3).2 = [0, 1, 1] ∧
    ¬ ((dgo_table 1 1 3).2.getD 1 0 < (dgo_table 1 1 3).2.getD 2 0) :=
  ⟨by decide, by decide⟩

/-- C5 amended: the partition table of `DistributionGlobalOperator` satisfies
`count[r] = nlocal(r) * product(globalShape[1:])` for every rank,
`offsets[0] = 0` and `offsets[i+1] = offsets[i] + counts[i]`; the offsets
sequence is non-decreasing (strict increase fails whenever some count is 0,
e.g. when `nglobal < size`). -/
theorem C5_partition_table (m : Nat) (rest : List Int) (hrest : ∀ x ∈ rest, 0 ≤ x)
    (s : Nat) (hs : 1 ≤ s) :
    (dgo_table (m : Int) rest.prod s).1.length = s ∧
    (dgo_table (m : Int) rest.prod s).2.length = s ∧
    (∀ r : Nat, r < s →
      (dgo_table (m : Int) rest.prod s).1.getD r 0
        = nlocal (m : Int) (↑r) (↑s) * rest.prod) ∧
    (dgo_table (m : Int) rest.prod s).2.getD 0 0 = 0 ∧
    (∀ i : Nat, i + 1 < s →
      (dgo_table (m : Int) rest.prod s).2.getD (i + 1) 0
        = (dgo_table (m : Int) rest.prod s).2.getD i 0
          + (dgo_table (m : Int) rest.prod s).1.getD i 0) ∧
    (∀ i : Nat, i + 1 < s →
      (dgo_table (m : Int) rest.prod s).2.getD i 0
        ≤ (dgo_table (m : Int) rest.prod s).2.getD (i + 1) 0) := by
  rw [dgo_table_spec _ _ _ hs]
  have hq : 0 ≤ rest.prod := List.prod_nonneg hrest
  have hcnt : ∀ r : Nat, 0 ≤ cntI (m : Int) rest.prod s r := by
    intro r
    unfold cntI
    rw [nlocal_natCast]
    exact mul_nonneg (Int.natCast_nonneg _) hq
  have hoffs : ∀ i : Nat, offI (m : Int) rest.prod s (i + 1)
      = offI (m : Int) rest.prod s i + cntI (m : Int) rest.prod s i := by
    intro i
    simp [offI, List.range_succ]
  refine ⟨by simp, by simp, ?_, ?_, ?_, ?_⟩
  · intro r hr
    show ((List.range s).map (cntI (m : Int) rest.prod s)).getD r 0 = _
    rw [getD_map_range _ _ _ hr]
    rfl
  · show ((List.range s).map (offI (m : Int) rest.prod s)).getD 0 0 = 0
    rw [getD_map_range _ _ _ hs]
    simp [offI]
  · intro i hi
    show ((List.range s).map (offI (m : Int) rest.prod s)).getD (i + 1) 0
      = ((List.range s).map (offI (m : Int) rest.prod s)).getD i 0
        + ((List.range s).map (cntI (m : Int) rest.prod s)).getD i 0
    rw [getD_map_range _ _ _ hi, getD_map_range _ _ _ (by omega : i < s),
      getD_map_range _ _ _ (by omega : i < s)]
    exact hoffs i
  · intro i hi
    show ((List.range s).map (offI (m : Int) rest.prod s)).getD i 0
      ≤ ((List.range s).map (offI (m : Int) rest.prod s)).getD (i + 1) 0
    rw [getD_map_range _ _ _ hi, getD_map_range _ _ _ (by omega : i < s), hoffs i]
    exact le_add_of_nonneg_right (hcnt i)

/-- Witness for the amended C5 at shape `(16, 2)`, `size = 3`
(counts 12, 10, 10; offsets 0, 12, 22). -/
theorem C5_partition_table_witness :
    (dgo_table ((16 : Nat) : Int) ([2] : List Int).prod 3).2.getD (0 + 1) 0
      = (dgo_table ((16 : Nat) : Int) ([2] : List Int).prod 3).2.getD 0 0
        + (dgo_table ((16 : Nat) : Int) ([2] : List Int).prod 3).1.getD 0 0 :=
  (C5_partition_table 16 [2] (by decide) 3 (by decide)).2.2.2.2.1 0 (by decide)

lemma direct_natCast {α : Type} (G : List α) (r s : Nat) :
    DistributionGlobalOperator.direct (slice_start (G.length : Int) (↑r) (↑s))
        (slice_stop (G.length : Int) (↑r) (↑s)) G
      = (G.drop (startN G.length r s)).take (nlocalN G.length r s) := by
  unfold DistributionGlobalOperator.direct
  rw [slice_start_natCast, slice_stop_natCast, Int.toNat_ofNat, Int.toNat_ofNat]
  congr 1
  omega

/-- C3: scattering a global buffer with the forward operation on every worker
(each extracting its own slice) and gathering the slices back in rank order
at their cumulative offsets reproduces the global buffer exactly; the
gathered result is one and the same list for every worker, since
`Allgatherv` delivers the identical concatenation to all ranks. -/
theorem C3_scatter_gather_roundtrip (α : Type) (G : List α) (s : Nat) (hs : 1 ≤ s) :
    DistributionGlobalOperator.transpose
      ((List.range s).map fun r : Nat =>
        DistributionGlobalOperator.direct (slice_start (G.length : Int) (↑r) (↑s))
          (slice_stop (G.length : Int) (↑r) (↑s)) G) = G := by
  unfold DistributionGlobalOperator.transpose
  simp only [direct_natCast]
  rw [flatten_segments G s s, startN_self _ _ hs, List.take_length]

/-- Witness for C3: the example of the source docstring, global buffer
`[1, 2, 3]` over three workers. -/
theorem C3_scatter_gather_roundtrip_witness :
    DistributionGlobalOperator.transpose
      ((List.range 3).map fun r : Nat =>
        DistributionGlobalOperator.direct
          (slice_start ((([1, 2, 3] : List Int).length : Nat) : Int) (↑r) ((3 : Nat) : Int))
          (slice_stop ((([1, 2, 3] : List Int).length : Nat) : Int) (↑r) ((3 : Nat) : Int))
          ([1, 2, 3] : List Int)) = [1, 2, 3] :=
  C3_scatter_gather_roundtrip Int [1, 2, 3] 3 (by decide)

/-- C8: with equal-shaped local buffers `L j` on every worker, the adjoint of
the broadcast/reduce operator (assign `output := input` unless the buffers
alias, then all-reduce in place) produces the element-wise sum over all
workers' local buffers, the same list for every worker, since `Allreduce`
delivers the identical reduction to all ranks. -/
theorem C8_adjoint_allreduce (N m : Nat) (hN : 1 ≤ N) (L O : Nat → List Int)
    (same_data : Nat → Bool)
    (hlen : ∀ j, j < N → (L j).length = m)
    (halias : ∀ j, same_data j = true → O j = L j) :
    (DistributionIdentityOperator.transpose N same_data L O).length = m ∧
    ∀ i, i < m → (DistributionIdentityOperator.transpose N same_data L O).getD i 0
        = ((List.range N).map fun j => (L j).getD i 0).sum := by
  unfold DistributionIdentityOperator.transpose
  have hmap : (List.range N).map (fun j => if same_data j then O j else L j)
      = (List.range N).map L := by
    refine List.map_congr_left ?_
    intro j _
    by_cases h : same_data j
    · simp [h, halias j h]
    · simp [h]
  rw [hmap]
  have hbl : ∀ b ∈ (List.range N).map L, b.length = m := by
    intro b hb
    rcases List.mem_map.mp hb with ⟨j, hj, rfl⟩
    exact hlen j (List.mem_range.mp hj)
  have hne : (List.range N).map L ≠ [] := by
    refine List.ne_nil_of_length_pos ?_
    simp
    omega
  constructor
  · exact allreduce_sum_length m _ hne hbl
  · intro i hi
    rw [allreduce_sum_getD m _ hbl i hi, List.map_map]
    rfl

/-- Witness for C8: the example of the source docstring, three workers each
holding `[1,1,1] * (rank + 1)`; the reduction of the first element is 6. -/
theorem C8_adjoint_allreduce_witness :
    (DistributionIdentityOperator.transpose 3 (fun _ => false)
        (fun j => [(j : Int) + 1, (j : Int) + 1, (j : Int) + 1]) (fun _ => [])).getD 0 0
      = ((List.range 3).map fun j =>
          ([(j : Int) + 1, (j : Int) + 1, (j : Int) + 1] : List Int).getD 0 0).sum :=
  (C8_adjoint_allreduce 3 3 (by decide)
    (fun j => [(j : Int) + 1, (j : Int) + 1, (j : Int) + 1]) (fun _ => [])
    (fun _ => false) (fun _ _ => rfl) (fun _ h => nomatch h)).2 0 (by decide)

/-- C9: the forward method of the broadcast/reduce operator returns its input
unchanged: if the buffers alias the same storage it performs no operation
(leaving `output`, which then already equals `input`, untouched); otherwise
it copies `input` into `output`; no communication happens in either case. -/
theorem C9_identity_forward (α : Type) (same_data : Bool) (input output : α)
    (halias : same_data = true → output = input) :
    DistributionIdentityOperator.direct same_data input output = input := by
  unfold DistributionIdentityOperator.direct
  cases same_data
  · simp
  · simp [halias rfl]

/-- Witness for C9 with aliased buffers holding 5. -/
theorem C9_identity_forward_witness :
    DistributionIdentityOperator.direct true (5 : Int) 5 = 5 :=
  C9_identity_forward Int true 5 5 (fun _ => rfl)

/-- C10: when `0 ≤ nglobal < size`, the partition functions succeed without
error: every rank `r ≥ nglobal` gets local extent 0, the empty slice
`[nglobal, nglobal)`, a local shape whose first dimension is 0, and a
precomputed count of 0 in the partition table. -/
theorem C10_more_ranks_than_items (m r s q : Nat) (hs : 1 ≤ s) (hm : m < s)
    (hr : m ≤ r) (hrs : r < s) :
    nlocal (m : Int) (↑r) (↑s) = 0 ∧
    distribute_slice (m : Int) (↑r) (↑s) = some ((m : Int), (m : Int)) ∧
    (∀ rest : List Int,
      distribute_shape ((m : Int) :: rest) (↑r) (↑s) = some (0 :: rest)) ∧
    (dgo_table (m : Int) (q : Int) s).1.getD r 0 = 0 := by
  have hdiv : m / s = 0 := Nat.div_eq_of_lt hm
  have hmod : m % s = m := Nat.mod_eq_of_lt hm
  have hnl : nlocalN m r s = 0 := by
    unfold nlocalN
    rw [hdiv, hmod, if_neg (by omega)]
  have hnlI : nlocal (m : Int) (↑r) (↑s) = 0 := by
    rw [nlocal_natCast, hnl]
    rfl
  have hst : startN m r s = m := by
    unfold startN
    rw [hdiv, hmod, Nat.min_eq_right hr]
    simp
  have hsZ : (s : Int) ≠ 0 := Int.natCast_ne_zero.mpr (by omega)
  refine ⟨hnlI, ?_, ?_, ?_⟩
  · rw [distribute_slice_of_ne _ _ _ hsZ]
    unfold slice_stop
    rw [slice_start_natCast, hst, hnlI]
    simp
  · intro rest
    simp [distribute_shape, hsZ, hnlI]
  · rw [dgo_table_spec _ _ _ hs]
    show ((List.range s).map (cntI (m : Int) (q : Int) s)).getD r 0 = 0
    rw [getD_map_range _ _ _ hrs]
    unfold cntI
    rw [hnlI]
    ring

/-- Witness for C10 at `nglobal = 1`, `rank = 1`, `size = 2`: the empty slice
`[1, 1)`. -/
theorem C10_more_ranks_than_items_witness :
    distribute_slice ((1 : Nat) : Int) (↑(1 : Nat)) ((2 : Nat) : Int)
      = some (((1 : Nat) : Int), ((1 : Nat) : Int)) :=
  (C10_more_ranks_than_items 1 1 2 4 (by decide) (by decide) (by decide) (by decide)).2.1
